import Mathlib

/-
  Verification of the asset-gallery repository (nextjs-assets-gallery).

  The development shallowly embeds the two algorithmic source files:
    * `src/app/page.tsx`   — asset collector (`collectAssets`), URL builder
      (`toPublicUrl`) and merger (`mergeAssets`);
    * `src/app/AssetGallery.tsx` — sectioning (`sections`), slugs (`toSlug`),
      folder extraction (`getFolderPath`) and the scroll handler (`onScroll`).

  Modelling notes, applied consistently below:
    * Strings are Lean `String`s; positions/lengths are counted in code points
      (JS counts UTF-16 units; the difference only affects astral-plane
      characters, which none of the claims exercise).
    * `String.prototype.toLowerCase` is modelled on the Basic Latin range
      (`A`-`Z` map to `a`-`z`, all other characters are fixed).  Full Unicode
      case mapping is not modelled; for extension comparison against the
      ASCII-only accepted set and for slugs (whose alphabet is `[a-z0-9-]`)
      the two agree.
    * Default-locale `localeCompare()` is ICU/CLDR collation: an
      environment-dependent external order that differs from code-point
      order already on ASCII (ICU puts `a` before `B`; code points put
      `B` first) and that can tie distinct strings containing ignorable
      characters (e.g. soft hyphen U+00AD).  It cannot be embedded here.
      The comparators `mergedLe` and `sectionFolderLe` below are
      executable code-point stand-ins, kept only so the embedded
      functions compute; no theorem depends on a stand-in matching the
      real collation: every statement involving the merger's sort is
      order-insensitive (memberships, permutations) or addresses the
      divergence itself (claim C5), the section-partition statement is
      independent of the folder sort, and the one concrete sectioning
      computation (claim C7's counterexample) orders `a b` before `a-b`,
      agreeing with ICU primary order (space before hyphen).
    * Node's `path.sep` is `/` (the deployment target is POSIX), so
      `split(path.sep).join("/")` is the identity and `path.join(a, b)` with
      `b` a plain directory entry name (no separators, not `.`/`..`, as
      `readdir` yields) is `a ++ "/" ++ b` (or `b` when `a` is empty).
    * The filesystem is a tree of named entries; a directory whose contents
      cannot be listed (the `catch` branch around `readdir`) is modelled as
      `DirContents.unreadable`.
-/

/- ------------------------------------------------------------------ -/
/- Character and string utilities mirroring the JS/Node primitives.    -/
/- ------------------------------------------------------------------ -/

/-- Model of `String.prototype.toLowerCase` on one character (Basic Latin
case mapping; see the modelling notes above). -/
def jsLowerChar (c : Char) : Char :=
  if 'A' ≤ c ∧ c ≤ 'Z' then Char.ofNat (c.toNat + 32) else c

/-- Model of `String.prototype.toLowerCase`. -/
def jsToLower (s : String) : String := ⟨s.data.map jsLowerChar⟩

/-- Index of the last occurrence of `c`, if any. -/
def lastIdx (c : Char) : List Char → Option Nat
  | [] => none
  | a :: rest =>
    match lastIdx c rest with
    | some i => some (i + 1)
    | none => if a = c then some 0 else none

/-- Remove trailing `/` characters (Node's path scanners skip them). -/
def dropTrailingSlashes (l : List Char) : List Char :=
  (l.reverse.dropWhile (fun c => c = '/')).reverse

/-- The part after the last `/` (the whole list if there is none). -/
def lastSegment (l : List Char) : List Char :=
  match lastIdx '/' l with
  | none => l
  | some d => l.drop (d + 1)

/-- Extension of a path segment, per Node's `path.extname` state machine:
empty when there is no dot, when the last dot is the segment's first
character, or when the segment is exactly `..`; otherwise the suffix from
the last dot (inclusive). -/
def extnameOfSegment (seg : List Char) : List Char :=
  match lastIdx '.' seg with
  | none => []
  | some d => if d = 0 ∨ seg = ['.', '.'] then [] else seg.drop d

/-- Model of Node `path.extname` (POSIX): trailing slashes are skipped and
the extension is taken from the last path segment. -/
def jsExtname (p : String) : String :=
  ⟨extnameOfSegment (lastSegment (dropTrailingSlashes p.data))⟩

/-- Model of Node `path.basename(p, ext)` (POSIX).  With an empty `ext` it
returns the last segment after trailing slashes; with a non-empty `ext` it
additionally strips `ext` when it is a proper suffix of that segment
(Node keeps the segment whole when it equals `ext`, returns `""` when the
whole path equals `ext`, and returns `p` itself when `p` has no non-slash
characters). -/
def jsBasename (p e : String) : String :=
  if e ≠ "" ∧ e.data.length ≤ p.data.length then
    if e = p then ""
    else
      let t := dropTrailingSlashes p.data
      if t = [] then p
      else
        let seg := lastSegment t
        if e.data ≠ seg ∧ e.data.isSuffixOf seg then ⟨seg.take (seg.length - e.data.length)⟩
        else ⟨seg⟩
  else ⟨lastSegment (dropTrailingSlashes p.data)⟩

/-- Model of the merger's `relativePath.replace(/\.[^.]+$/, "")`: drop the
final dot-run `.xyz` when the last dot is followed by at least one
character (all characters after the last dot are dot-free by choice of the
last dot).  The subsequent `split(path.sep).join("/")` is the identity on
POSIX. -/
def stripExtension (p : String) : String :=
  match lastIdx '.' p.data with
  | none => p
  | some d => if d + 1 < p.data.length then ⟨p.data.take d⟩ else p

/-- Model of `path.join(relativeDir, name)` for a plain entry name (see the
modelling notes), matching the collector's `relativeDir ? path.join(...) :
entry.name`. -/
def joinRel (rd name : String) : String := if rd = "" then name else rd ++ "/" ++ name

/-- Model of `"…".split("/")`: JS semantics, so the result is non-empty and
empty fragments are kept. -/
def splitSlash : List Char → List (List Char)
  | [] => [[]]
  | c :: rest =>
    if c = '/' then [] :: splitSlash rest
    else
      match splitSlash rest with
      | [] => [c] :: []
      | s :: ss => (c :: s) :: ss

/-- Model of `[...].join("/")`. -/
def joinSlash : List (List Char) → List Char
  | [] => []
  | s :: ss =>
    match ss with
    | [] => s
    | _ :: _ => s ++ '/' :: joinSlash ss

/-- UTF-8 bytes of a character (scalar values only, as Lean `Char`). -/
def utf8Bytes (c : Char) : List Nat :=
  let n := c.toNat
  if n < 128 then [n]
  else if n < 2048 then [192 + n / 64, 128 + n % 64]
  else if n < 65536 then [224 + n / 4096, 128 + n / 64 % 64, 128 + n % 64]
  else [240 + n / 262144, 128 + n / 4096 % 64, 128 + n / 64 % 64, 128 + n % 64]

/-- Upper-case hexadecimal digit, as `encodeURIComponent` produces. -/
def hexDigit (n : Nat) : Char :=
  if n < 10 then Char.ofNat (48 + n) else Char.ofNat (55 + n)

/-- Percent-escape of one byte: `%XY`. -/
def percentByte (b : Nat) : List Char := ['%', hexDigit (b / 16), hexDigit (b % 16)]

/-- The characters `encodeURIComponent` leaves unescaped:
`A-Z a-z 0-9 - _ . ! ~ * ' ( )`. -/
def isUriUnreserved (c : Char) : Bool :=
  ('A' ≤ c && c ≤ 'Z') || ('a' ≤ c && c ≤ 'z') || ('0' ≤ c && c ≤ '9') ||
  c = '-' || c = '_' || c = '.' || c = '!' || c = '~' || c = '*' ||
  c = Char.ofNat 39 || c = '(' || c = ')'

/-- Model of `encodeURIComponent` on a list of characters. -/
def encodeSegment (seg : List Char) : List Char :=
  seg.flatMap fun c =>
    if isUriUnreserved c then [c] else (utf8Bytes c).flatMap percentByte

/-- Model of JS `encodeURIComponent`. -/
def encodeURIComponent (s : String) : String := ⟨encodeSegment s.data⟩

/- ------------------------------------------------------------------ -/
/- Data model (page.tsx).                                              -/
/- ------------------------------------------------------------------ -/

/-- `AssetItem` from `page.tsx`. -/
structure AssetItem where
  name : String
  extension : String
  relativePath : String
  publicUrl : String
  rootFolder : String
deriving DecidableEq, Repr

/-- `MergedVariant` from `page.tsx`. -/
structure MergedVariant where
  extension : String
  publicUrl : String
deriving DecidableEq, Repr

/-- `MergedAsset` from `page.tsx`. -/
structure MergedAsset where
  rootFolder : String
  baseName : String
  relativePath : String
  variants : List MergedVariant
  previewUrl : String
  previewExtension : String
deriving DecidableEq, Repr

/-- `IMAGE_EXTENSIONS` from `page.tsx` (a JS `Set`, modelled as the literal
list; only membership is used). -/
def IMAGE_EXTENSIONS : List String :=
  ["png", "svg", "jpg", "jpeg", "webp", "gif", "avif", "bmp"]

/-- `ROOT_FOLDERS` from `page.tsx`. -/
def ROOT_FOLDERS : List String := ["Separate Atoms", "Templates"]

/-- `toPublicUrl` from `page.tsx`: `"/" ++` the concatenation
`rootFolder ++ "/" ++ relativePath` split on `/`, each fragment passed
through `encodeURIComponent`, re-joined with `/`.  (The preceding
`split(path.sep).join("/")` is the identity on POSIX.) -/
def toPublicUrl (rootFolder relativePath : String) : String :=
  ⟨'/' :: joinSlash ((splitSlash (rootFolder ++ "/" ++ relativePath).data).map encodeSegment)⟩

/- ------------------------------------------------------------------ -/
/- Filesystem model and the collector (page.tsx, collectAssets).       -/
/- ------------------------------------------------------------------ -/

mutual
/-- A directory entry as reported by `readdir(…, { withFileTypes: true })`:
a regular file or a directory. -/
inductive FsEntry where
  | file (name : String) : FsEntry
  | dir (name : String) (contents : DirContents) : FsEntry

/-- The contents of a directory: either unreadable (the `catch` branch of
`readdir`) or a readable list of entries, in enumeration order. -/
inductive DirContents where
  | unreadable : DirContents
  | readable (entries : FsEntries) : DirContents

/-- A list of directory entries. -/
inductive FsEntries where
  | nil : FsEntries
  | cons (e : FsEntry) (rest : FsEntries) : FsEntries
end

/-- The collector's extension computation for one file name:
`path.extname(entry.name).slice(1).toLowerCase()`. -/
def imageExtOf (name : String) : String := jsToLower ((jsExtname name).drop 1)

/-- Membership test against the accepted set (`IMAGE_EXTENSIONS.has`). -/
def isAcceptedFile (name : String) : Bool := IMAGE_EXTENSIONS.contains (imageExtOf name)

mutual
/-- `collectAssets` from `page.tsx`, on the contents of the directory
`absoluteDir`: an unreadable directory yields `[]` (the `catch` branch),
a readable one is processed entry by entry. -/
def collectAssets : DirContents → String → String → List AssetItem
  | .unreadable, _, _ => []
  | .readable es, rootFolder, relativeDir => collectEntries es rootFolder relativeDir

/-- The `for (const entry of entries)` loop of `collectAssets`. -/
def collectEntries : FsEntries → String → String → List AssetItem
  | .nil, _, _ => []
  | .cons e rest, rootFolder, relativeDir =>
    collectEntry e rootFolder relativeDir ++ collectEntries rest rootFolder relativeDir

/-- One iteration of the loop: directories are recursed into (never listed
themselves), files are kept exactly when their lower-cased extension is in
the accepted set. -/
def collectEntry : FsEntry → String → String → List AssetItem
  | .dir name sub, rootFolder, relativeDir =>
    collectAssets sub rootFolder (joinRel relativeDir name)
  | .file name, rootFolder, relativeDir =>
    if isAcceptedFile name then
      [{ name := name, extension := imageExtOf name,
         relativePath := joinRel relativeDir name,
         publicUrl := toPublicUrl rootFolder (joinRel relativeDir name),
         rootFolder := rootFolder }]
    else []
end

/- ------------------------------------------------------------------ -/
/- Spec-side reference definitions for the collector claims.           -/
/- ------------------------------------------------------------------ -/

mutual
/-- Reference definition, following the spec's words for C2: the
`(relativePath, name)` pairs of every regular file reachable in the tree
(directories are recursed into, never listed; unreadable directories have
no reachable files). -/
def specDirFiles : DirContents → String → List (String × String)
  | .unreadable, _ => []
  | .readable es, relativeDir => specEntriesFiles es relativeDir

/-- Reachable regular files of an entry list (reference definition). -/
def specEntriesFiles : FsEntries → String → List (String × String)
  | .nil, _ => []
  | .cons e rest, relativeDir =>
    specEntryFiles e relativeDir ++ specEntriesFiles rest relativeDir

/-- Reachable regular files of one entry (reference definition). -/
def specEntryFiles : FsEntry → String → List (String × String)
  | .file name, relativeDir => [(joinRel relativeDir name, name)]
  | .dir name sub, relativeDir => specDirFiles sub (joinRel relativeDir name)
end

/-- The `AssetItem` the collector builds for a discovered file, given as a
`(relativePath, name)` pair. -/
def mkAssetItem (rootFolder : String) (pr : String × String) : AssetItem :=
  { name := pr.2, extension := imageExtOf pr.2, relativePath := pr.1,
    publicUrl := toPublicUrl rootFolder pr.1, rootFolder := rootFolder }

/-- Removing every unreadable directory from a tree (used to state C4:
an unreadable branch behaves as if it were absent). -/
def pruneEntries : FsEntries → FsEntries
  | .nil => .nil
  | .cons (.file n) rest => .cons (.file n) (pruneEntries rest)
  | .cons (.dir _ .unreadable) rest => pruneEntries rest
  | .cons (.dir n (.readable es)) rest =>
    .cons (.dir n (.readable (pruneEntries es))) (pruneEntries rest)

/- ------------------------------------------------------------------ -/
/- The merger (page.tsx, mergeAssets).                                 -/
/- ------------------------------------------------------------------ -/

/-- The grouping key of `mergeAssets`:
`` `${item.rootFolder}\n${pathNoExt}` `` with `pathNoExt` the
extension-stripped relative path. -/
def itemKey (i : AssetItem) : String :=
  i.rootFolder ++ "\n" ++ stripExtension i.relativePath

/-- Keys of a list in first-occurrence order: the iteration order of the JS
`Map` built by pushing each item under its key. -/
def firstKeys {α : Type} (key : α → String) : List α → List String
  | [] => []
  | a :: rest => key a :: (firstKeys key rest).filter (fun k => k != key a)

/-- `preferOrder` from `mergeAssets`. -/
def preferOrder : List String :=
  ["svg", "png", "jpg", "jpeg", "webp", "gif", "avif", "bmp"]

/-- The preview-selection loop of `mergeAssets` over the group
`first :: rest` (`group[0]` is `first`): the first preferred extension for
which `group.find` succeeds wins, else the fallback `group[0]`. -/
def pickPreview (first : AssetItem) (rest : List AssetItem) : AssetItem :=
  match preferOrder.findSome? (fun e => (first :: rest).find? (fun i => i.extension == e)) with
  | some p => p
  | none => first

/-- `path.basename(first.relativePath, path.extname(first.relativePath)) ||
first.name` from `mergeAssets` (`""` is falsy in JS). -/
def mergedBaseName (i : AssetItem) : String :=
  let b := jsBasename i.relativePath (jsExtname i.relativePath)
  if b = "" then i.name else b

/-- Processing of one (non-empty, in first-arrival order) group of
`mergeAssets` into a `MergedAsset`. -/
def mergeGroup : List AssetItem → Option MergedAsset
  | [] => none
  | first :: rest =>
    some { rootFolder := first.rootFolder,
           baseName := mergedBaseName first,
           relativePath := stripExtension first.relativePath,
           variants := (first :: rest).map
             (fun i => { extension := i.extension, publicUrl := i.publicUrl }),
           previewUrl := (pickPreview first rest).publicUrl,
           previewExtension := (pickPreview first rest).extension }

/-- The merger's sort comparator
`a.rootFolder.localeCompare(b.rootFolder) ||
a.relativePath.localeCompare(b.relativePath)` being non-positive.
Default-locale `localeCompare` is ICU/CLDR collation (see the header
notes): it differs from code-point order already on ASCII and can tie
distinct strings, and it is not translatable to this embedding, so
`mergedLe` is only an executable code-point stand-in.  No theorem below
relies on this stand-in matching the real collation. -/
def mergedLe (a b : MergedAsset) : Prop :=
  a.rootFolder.data < b.rootFolder.data ∨
    (a.rootFolder = b.rootFolder ∧ a.relativePath.data ≤ b.relativePath.data)

instance : DecidableRel mergedLe := fun a b =>
  inferInstanceAs (Decidable (a.rootFolder.data < b.rootFolder.data ∨
    (a.rootFolder = b.rootFolder ∧ a.relativePath.data ≤ b.relativePath.data)))

instance : IsTotal MergedAsset mergedLe where
  total a b := by
    unfold mergedLe
    rcases lt_trichotomy a.rootFolder.data b.rootFolder.data with h | h | h
    · exact Or.inl (Or.inl h)
    · rcases le_total a.relativePath.data b.relativePath.data with h2 | h2
      · exact Or.inl (Or.inr ⟨String.ext h, h2⟩)
      · exact Or.inr (Or.inr ⟨(String.ext h).symm, h2⟩)
    · exact Or.inr (Or.inl h)

instance : IsTrans MergedAsset mergedLe where
  trans a b c hab hbc := by
    unfold mergedLe at *
    rcases hab with hab | ⟨hab, hab2⟩
    · rcases hbc with hbc | ⟨hbc, _⟩
      · exact Or.inl (hab.trans hbc)
      · refine Or.inl ?_
        rw [← hbc]
        exact hab
    · rcases hbc with hbc | ⟨hbc, hbc2⟩
      · refine Or.inl ?_
        rw [hab]
        exact hbc
      · exact Or.inr ⟨hab.trans hbc, hab2.trans hbc2⟩

/-- The group stage of `mergeAssets`: group by `itemKey` (a JS `Map`,
whose iteration order is first-occurrence order of the keys and whose
group for key `k` holds the items with key `k` in arrival order) and turn
every group into a `MergedAsset`, in that key order. -/
def mergeGroups (items : List AssetItem) : List MergedAsset :=
  (firstKeys itemKey items).filterMap
    (fun k => mergeGroup (items.filter (fun i => itemKey i == k)))

/-- `mergeAssets` from `page.tsx`: the group stage followed by
`merged.sort(comparator)`.  `Array.prototype.sort` is modelled by
`insertionSort` over the `mergedLe` stand-in comparator (see the notes at
`mergedLe`); every theorem below involving `mergeAssets` is either
insensitive to the sort order (memberships, permutations) or explicitly
about the comparator divergence (claim C5). -/
def mergeAssets (items : List AssetItem) : List MergedAsset :=
  List.insertionSort mergedLe (mergeGroups items)

/-- The pair of sort keys of a merged asset, joined like `itemKey`; for
every output element this equals the key of its group. -/
def mergedKey (m : MergedAsset) : String := m.rootFolder ++ "\n" ++ m.relativePath

/-- A concrete raw asset used by witnesses and counterexamples: the file
`a.<ext>` at the repository root of root folder `r`. -/
def exAsset (ext : String) : AssetItem :=
  { name := "a." ++ ext, extension := ext, relativePath := "a." ++ ext,
    publicUrl := "/r/a." ++ ext, rootFolder := "r" }

/-- The merged asset `mergeAssets [exAsset "svg"]` produces (used by the
invariant witness). -/
def exMerged : MergedAsset :=
  { rootFolder := "r", baseName := "a", relativePath := "a",
    variants := [{ extension := "svg", publicUrl := "/r/a.svg" }],
    previewUrl := "/r/a.svg", previewExtension := "svg" }

/-- A raw asset named `x.png` directly under root folder `root` (used by
the C5 divergence analysis). -/
def exRootAsset (root : String) : AssetItem :=
  { name := "x.png", extension := "png", relativePath := "x.png",
    publicUrl := "/" ++ root ++ "/x.png", rootFolder := root }

/-- A linear order on variants (extension, then URL, code-point order),
used only to state order-independence of the merger up to the order of
each variants list: two variant lists are permutations of one another iff
they are equal after `insertionSort canonVariantLe`. -/
def canonVariantLe (a b : MergedVariant) : Prop :=
  a.extension.data < b.extension.data ∨
    (a.extension = b.extension ∧ a.publicUrl.data ≤ b.publicUrl.data)

instance : DecidableRel canonVariantLe := fun a b =>
  inferInstanceAs (Decidable (a.extension.data < b.extension.data ∨
    (a.extension = b.extension ∧ a.publicUrl.data ≤ b.publicUrl.data)))

instance : IsTotal MergedVariant canonVariantLe where
  total a b := by
    unfold canonVariantLe
    rcases lt_trichotomy a.extension.data b.extension.data with h | h | h
    · exact Or.inl (Or.inl h)
    · rcases le_total a.publicUrl.data b.publicUrl.data with h2 | h2
      · exact Or.inl (Or.inr ⟨String.ext h, h2⟩)
      · exact Or.inr (Or.inr ⟨(String.ext h).symm, h2⟩)
    · exact Or.inr (Or.inl h)

instance : IsTrans MergedVariant canonVariantLe where
  trans a b c hab hbc := by
    unfold canonVariantLe at *
    rcases hab with hab | ⟨hab, hab2⟩
    · rcases hbc with hbc | ⟨hbc, _⟩
      · exact Or.inl (hab.trans hbc)
      · refine Or.inl ?_
        rw [← hbc]
        exact hab
    · rcases hbc with hbc | ⟨hbc, hbc2⟩
      · refine Or.inl ?_
        rw [hab]
        exact hbc
      · exact Or.inr ⟨hab.trans hbc, hab2.trans hbc2⟩

instance : IsAntisymm MergedVariant canonVariantLe where
  antisymm a b h1 h2 := by
    have hee : a.extension = b.extension := by
      rcases h1 with h1 | ⟨h1e, _⟩
      · rcases h2 with h2 | ⟨h2e, _⟩
        · exact absurd h2 (lt_asymm h1)
        · exact h2e.symm
      · exact h1e
    have huu : a.publicUrl = b.publicUrl := by
      rcases h1 with h1 | ⟨_, h1u⟩
      · rw [hee] at h1
        exact absurd h1 (lt_irrefl _)
      · rcases h2 with h2 | ⟨_, h2u⟩
        · rw [hee] at h2
          exact absurd h2 (lt_irrefl _)
        · exact String.ext (le_antisymm h1u h2u)
    cases a
    cases b
    simp_all

/-- Sort a merged asset's variants list canonically; all other fields are
kept.  `canonMerged a = canonMerged b` iff the two assets agree on every
field except possibly the order of their variants lists. -/
def canonMerged (m : MergedAsset) : MergedAsset :=
  { m with variants := List.insertionSort canonVariantLe m.variants }

/- ------------------------------------------------------------------ -/
/- Gallery view (AssetGallery.tsx): slug, sections, scroll handler.    -/
/- ------------------------------------------------------------------ -/

/-- The JS regex class `\s`: space, tab, line feed, vertical tab, form
feed, carriage return, NBSP, Ogham space mark, the U+2000–U+200A range,
line/paragraph separator, narrow NBSP, medium mathematical space,
ideographic space, and BOM. -/
def isJsWhitespace (c : Char) : Bool :=
  c = ' ' || c = '\t' || c = '\n' || c = Char.ofNat 11 || c = Char.ofNat 12 || c = '\r' ||
  c = Char.ofNat 160 || c = Char.ofNat 5760 ||
  (Char.ofNat 8192 ≤ c && c ≤ Char.ofNat 8202) ||
  c = Char.ofNat 8232 || c = Char.ofNat 8233 || c = Char.ofNat 8239 ||
  c = Char.ofNat 8287 || c = Char.ofNat 12288 || c = Char.ofNat 65279

/-- Model of `replace(/\s+/g, "-")`: every maximal whitespace run becomes
one hyphen; the flag records whether the previous character was
whitespace. -/
def collapseWsAux : Bool → List Char → List Char
  | _, [] => []
  | prevWs, c :: rest =>
    if isJsWhitespace c then
      if prevWs then collapseWsAux true rest else '-' :: collapseWsAux true rest
    else c :: collapseWsAux false rest

/-- The class `[a-z0-9-]` kept by the final `replace(/[^a-z0-9-]/g, "")`. -/
def isSlugChar (c : Char) : Bool :=
  ('a' ≤ c && c ≤ 'z') || ('0' ≤ c && c ≤ '9') || c = '-'

/-- `toSlug` from `AssetGallery.tsx`: lower-case, whitespace runs to `-`,
`/` to `-`, then strip everything outside `[a-z0-9-]`. -/
def toSlug (heading : String) : String :=
  ⟨((collapseWsAux false (heading.data.map jsLowerChar)).map
      (fun c => if c = '/' then '-' else c)).filter isSlugChar⟩

/-- `getFolderPath` from `AssetGallery.tsx`:
`relativePath.includes("/") ? relativePath.replace(/\/[^/]+$/, "") : ""`.
The regex removes the last `/` and the (automatically slash-free,
non-empty) run after it; with no character after the last slash there is
no match and the string is returned whole. -/
def getFolderPath (relativePath : String) : String :=
  if relativePath.data.contains '/' then
    match lastIdx '/' relativePath.data with
    | some d =>
      if d + 1 < relativePath.data.length then ⟨relativePath.data.take d⟩ else relativePath
    | none => relativePath
  else ""

/-- One element of the `sections` array of `AssetGallery.tsx`. -/
structure GallerySection where
  root : String
  folderPath : String
  heading : String
  id : String
  items : List MergedAsset
deriving DecidableEq, Repr

/-- The folder-path comparator
`a.localeCompare(b, undefined, { sensitivity: "base" })` being
non-positive, modelled as code-point comparison of the lower-cased
strings (see the modelling notes). -/
def sectionFolderLe (a b : String) : Prop := (jsToLower a).data ≤ (jsToLower b).data

instance : DecidableRel sectionFolderLe := fun a b =>
  inferInstanceAs (Decidable ((jsToLower a).data ≤ (jsToLower b).data))

instance : IsTotal String sectionFolderLe where
  total _ _ := le_total _ _

instance : IsTrans String sectionFolderLe where
  trans _ _ _ h1 h2 := le_trans h1 h2

/-- `assets.filter((a) => a.rootFolder === root)`. -/
def rootAssetsOf (assets : List MergedAsset) (root : String) : List MergedAsset :=
  assets.filter (fun a => a.rootFolder == root)

/-- `folderPath ? root ++ " / " ++ folderPath : root` (`""` is falsy). -/
def sectionHeading (root fp : String) : String :=
  if fp = "" then root else root ++ " / " ++ fp

/-- The section pushed for one folder path of one root. -/
def mkSection (assets : List MergedAsset) (root fp : String) : GallerySection :=
  { root := root, folderPath := fp,
    heading := sectionHeading root fp,
    id := toSlug (sectionHeading root fp),
    items := (rootAssetsOf assets root).filter
      (fun a => getFolderPath a.relativePath == fp) }

/-- The sections of one root: folder paths in first-occurrence order (JS
`Map` iteration order), sorted by the case-insensitive comparator (JS sort
is stable; ties change nothing here because `firstKeys` has no
duplicates), one section each. -/
def perRootSections (assets : List MergedAsset) (root : String) : List GallerySection :=
  (List.insertionSort sectionFolderLe
    (firstKeys (fun a => getFolderPath a.relativePath) (rootAssetsOf assets root))).map
    (mkSection assets root)

/-- The `sections` memo of `AssetGallery.tsx`: per-root section lists in
`sectionOrder` order, concatenated. -/
def sectionsOf (assets : List MergedAsset) (sectionOrder : List String) : List GallerySection :=
  (sectionOrder.map (perRootSections assets)).flatten

/-- A concrete merged asset under root `Templates` (for gallery witnesses
and counterexamples). -/
def cexAsset (rp : String) : MergedAsset :=
  { rootFolder := "Templates", baseName := "x", relativePath := rp,
    variants := [{ extension := "png", publicUrl := "/u" }],
    previewUrl := "/u", previewExtension := "png" }

/-- One loop iteration of the `onScroll` handler: a section whose element
exists (`p.2 = some offsetTop`) and whose `offsetTop` is at or above the
anchor overwrites `current`; otherwise `current` is kept. -/
def scrollStep (vt : Int) (cur : Option String) (p : String × Option Int) : Option String :=
  match p.2 with
  | some o => if o ≤ vt then some p.1 else cur
  | none => cur

/-- The `current` variable after the `for (const id of ids)` loop of
`onScroll`, starting from `null`. -/
def scrollCurrent (secs : List (String × Option Int)) (vt : Int) : Option String :=
  secs.foldl (scrollStep vt) none

/-- `onScroll` from `AssetGallery.tsx` as a state update on `activeId`:
the anchor is `window.scrollY + 120`, and `setActiveId(current)` runs only
when `current` is truthy (not `null` and not the empty string). -/
def onScrollUpdate (secs : List (String × Option Int)) (scrollY : Int)
    (active : Option String) : Option String :=
  match scrollCurrent secs (scrollY + 120) with
  | some s => if s = "" then active else some s
  | none => active

/-- Reference predicate for C8: the section qualifies (its element exists
and its top offset is at or above the anchor). -/
def qualifies (vt : Int) (p : String × Option Int) : Bool :=
  match p.2 with
  | some o => decide (o ≤ vt)
  | none => false

/-- Reference definition for C8, following the spec's words: the last
section in document order that qualifies. -/
def lastQualifying (secs : List (String × Option Int)) (vt : Int) : Option String :=
  ((secs.filter (qualifies vt)).getLast?).map Prod.fst

/-- Reference definition for C9, following the spec's words: `/` followed
by the root-folder label and the relative path's segments, joined with
`/`, every segment percent-encoded independently. -/
def specPublicUrl (rootFolder relativePath : String) : String :=
  ⟨'/' :: joinSlash ((rootFolder.data :: splitSlash relativePath.data).map encodeSegment)⟩

/- ------------------------------------------------------------------ -/
/- Collector lemmas and claims C2/C4.                                  -/
/- ------------------------------------------------------------------ -/

mutual
theorem collectAssets_eq_spec (d : DirContents) (rootFolder relativeDir : String) :
    collectAssets d rootFolder relativeDir =
      ((specDirFiles d relativeDir).filter (fun pr => isAcceptedFile pr.2)).map
        (mkAssetItem rootFolder) := by
  cases d with
  | unreadable => rfl
  | readable es => exact collectEntries_eq_spec es rootFolder relativeDir

theorem collectEntries_eq_spec (es : FsEntries) (rootFolder relativeDir : String) :
    collectEntries es rootFolder relativeDir =
      ((specEntriesFiles es relativeDir).filter (fun pr => isAcceptedFile pr.2)).map
        (mkAssetItem rootFolder) := by
  cases es with
  | nil => rfl
  | cons e rest =>
    rw [collectEntries, specEntriesFiles, List.filter_append, List.map_append,
      collectEntry_eq_spec e rootFolder relativeDir,
      collectEntries_eq_spec rest rootFolder relativeDir]

theorem collectEntry_eq_spec (e : FsEntry) (rootFolder relativeDir : String) :
    collectEntry e rootFolder relativeDir =
      ((specEntryFiles e relativeDir).filter (fun pr => isAcceptedFile pr.2)).map
        (mkAssetItem rootFolder) := by
  cases e with
  | dir name sub => exact collectAssets_eq_spec sub rootFolder (joinRel relativeDir name)
  | file name =>
    rw [collectEntry, specEntryFiles]
    by_cases h : isAcceptedFile name
    · simp [h, mkAssetItem]
    · simp [h]
end

theorem collectEntries_prune :
    ∀ (es : FsEntries) (rootFolder relativeDir : String),
      collectEntries (pruneEntries es) rootFolder relativeDir =
        collectEntries es rootFolder relativeDir
  | .nil, _, _ => rfl
  | .cons (.file n) rest, rf, rd => by
    rw [pruneEntries, collectEntries, collectEntries,
      collectEntries_prune rest rf rd]
  | .cons (.dir n .unreadable) rest, rf, rd => by
    rw [pruneEntries, collectEntries, collectEntries_prune rest rf rd]
    rfl
  | .cons (.dir n (.readable es₂)) rest, rf, rd => by
    rw [pruneEntries, collectEntries, collectEntries, collectEntry, collectEntry,
      collectAssets, collectAssets, collectEntries_prune es₂, collectEntries_prune rest]

/-- Claim C2: for every directory tree, the collector's output is exactly
one `AssetItem` per reachable regular file whose lower-cased extension is
in the accepted set — in traversal order, with the fields the collector
computes — and nothing else: files with other or missing extensions are
absent, and directories are never listed, only recursed into (as the
reference walk `specDirFiles` records only regular files). -/
theorem claim_C2_collector_exact (d : DirContents) (rootFolder relativeDir : String) :
    collectAssets d rootFolder relativeDir =
      ((specDirFiles d relativeDir).filter (fun pr => isAcceptedFile pr.2)).map
        (mkAssetItem rootFolder) :=
  collectAssets_eq_spec d rootFolder relativeDir

/-- Claim C4: an unreadable directory contributes an empty result and no
error (the collector is a total function returning `[]` on that branch),
and the output for any tree equals the output for the same tree with every
unreadable branch removed — siblings are unaffected. -/
theorem claim_C4_unreadable_as_empty :
    (∀ rootFolder relativeDir : String,
        collectAssets .unreadable rootFolder relativeDir = []) ∧
    (∀ (es : FsEntries) (rootFolder relativeDir : String),
        collectEntries (pruneEntries es) rootFolder relativeDir =
          collectEntries es rootFolder relativeDir) :=
  ⟨fun _ _ => rfl, collectEntries_prune⟩

/- ------------------------------------------------------------------ -/
/- Merger lemmas and claims C1/C5/C6.                                  -/
/- ------------------------------------------------------------------ -/

theorem pickPreview_mem (first : AssetItem) (rest : List AssetItem) :
    pickPreview first rest ∈ first :: rest := by
  unfold pickPreview
  split
  · rename_i p heq
    obtain ⟨e, _, hfind⟩ := List.exists_of_findSome?_eq_some heq
    exact List.mem_of_find?_eq_some hfind
  · exact List.mem_cons_self _ _

theorem findPreferred_spec (g : List AssetItem) :
    ∀ es : List String,
      (∀ e, es.find? (fun x => g.any (fun i => i.extension == x)) = some e →
          ∃ p, es.findSome? (fun x => g.find? (fun i => i.extension == x)) = some p ∧
            p ∈ g ∧ p.extension = e) ∧
      (es.find? (fun x => g.any (fun i => i.extension == x)) = none →
          es.findSome? (fun x => g.find? (fun i => i.extension == x)) = none)
  | [] => by
    constructor
    · intro e he
      exact absurd he (by simp)
    · intro _
      rfl
  | e0 :: es => by
    by_cases hany : g.any (fun i => i.extension == e0) = true
    · constructor
      · intro e he
        rw [@List.find?_cons_of_pos _ (fun x => g.any (fun i => i.extension == x)) e0 es hany] at he
        injection he with he
        subst he
        obtain ⟨i, hi, hie⟩ := List.any_eq_true.mp hany
        cases hf : g.find? (fun i => i.extension == e0) with
        | none =>
          rw [List.find?_eq_none] at hf
          exact absurd hie (hf i hi)
        | some p =>
          have hbe0 := List.find?_some hf
          have hbe : (p.extension == e0) = true := hbe0
          refine ⟨p, ?_, List.mem_of_find?_eq_some hf, beq_iff_eq.mp hbe⟩
          simp only [List.findSome?_cons, hf]
      · intro he
        rw [@List.find?_cons_of_pos _ (fun x => g.any (fun i => i.extension == x)) e0 es hany] at he
        exact absurd he (by simp)
    · have hnone : g.find? (fun i => i.extension == e0) = none := by
        rw [List.find?_eq_none]
        intro i hi hcon
        exact hany (List.any_eq_true.mpr ⟨i, hi, hcon⟩)
      have ih := findPreferred_spec g es
      constructor
      · intro e he
        rw [@List.find?_cons_of_neg _ (fun x => g.any (fun i => i.extension == x)) e0 es hany] at he
        obtain ⟨p, hp, hmem, hext⟩ := ih.1 e he
        refine ⟨p, ?_, hmem, hext⟩
        simp only [List.findSome?_cons, hnone]
        exact hp
      · intro he
        rw [@List.find?_cons_of_neg _ (fun x => g.any (fun i => i.extension == x)) e0 es hany] at he
        simp only [List.findSome?_cons, hnone]
        exact ih.2 he

/-- Claim C1: for a merged group `first :: rest`, the chosen preview is the
group member whose extension is the earliest extension of the fixed
preference order present among the group (the `find?` over `preferOrder`
below is exactly "earliest one present"); if no member's extension occurs
in the order, the preview is the first group member encountered.  In
particular a group with extensions {jpg, svg, png} previews svg,
{jpg, png} previews png, and {bmp, gif} previews gif. -/
theorem claim_C1_preview_preference (first : AssetItem) (rest : List AssetItem) :
    (∀ e, preferOrder.find?
          (fun x => (first :: rest).any (fun i => i.extension == x)) = some e →
        (pickPreview first rest).extension = e ∧ pickPreview first rest ∈ first :: rest) ∧
    (preferOrder.find?
          (fun x => (first :: rest).any (fun i => i.extension == x)) = none →
        pickPreview first rest = first) ∧
    (pickPreview (exAsset "jpg") [exAsset "svg", exAsset "png"]).extension = "svg" ∧
    (pickPreview (exAsset "jpg") [exAsset "png"]).extension = "png" ∧
    (pickPreview (exAsset "bmp") [exAsset "gif"]).extension = "gif" := by
  refine ⟨?_, ?_, by decide, by decide, by decide⟩
  · intro e he
    obtain ⟨p, hp, hmem, hext⟩ := (findPreferred_spec (first :: rest) preferOrder).1 e he
    unfold pickPreview
    rw [hp]
    exact ⟨hext, hmem⟩
  · intro he
    have hn := (findPreferred_spec (first :: rest) preferOrder).2 he
    unfold pickPreview
    rw [hn]

/-- Witness for C1 at the group {jpg, svg, png}: the hypothesis (svg is
the earliest preference present) is discharged by evaluation and the
theorem yields the svg preview. -/
theorem claim_C1_preview_preference_witness :
    (pickPreview (exAsset "jpg") [exAsset "svg", exAsset "png"]).extension = "svg" ∧
      pickPreview (exAsset "jpg") [exAsset "svg", exAsset "png"] ∈
        exAsset "jpg" :: [exAsset "svg", exAsset "png"] :=
  (claim_C1_preview_preference (exAsset "jpg") [exAsset "svg", exAsset "png"]).1 "svg"
    (by decide)

theorem mem_firstKeys {α : Type} (key : α → String) :
    ∀ (l : List α) (k : String), k ∈ firstKeys key l ↔ ∃ a ∈ l, key a = k
  | [], k => by simp [firstKeys]
  | a :: rest, k => by
    rw [firstKeys]
    constructor
    · intro h
      rcases List.mem_cons.mp h with h | h
      · exact ⟨a, List.mem_cons_self a rest, h.symm⟩
      · obtain ⟨b, hb, hk⟩ := (mem_firstKeys key rest k).mp (List.mem_filter.mp h).1
        exact ⟨b, List.mem_cons_of_mem a hb, hk⟩
    · rintro ⟨b, hb, hk⟩
      rcases List.mem_cons.mp hb with rfl | hb
      · exact List.mem_cons.mpr (Or.inl hk.symm)
      · by_cases hek : k = key a
        · exact List.mem_cons.mpr (Or.inl hek)
        · refine List.mem_cons.mpr (Or.inr (List.mem_filter.mpr
            ⟨(mem_firstKeys key rest k).mpr ⟨b, hb, hk⟩, bne_iff_ne.mpr hek⟩))

theorem nodup_firstKeys {α : Type} (key : α → String) :
    ∀ l : List α, (firstKeys key l).Nodup
  | [] => List.nodup_nil
  | a :: rest => by
    rw [firstKeys]
    refine List.nodup_cons.mpr ⟨?_, (nodup_firstKeys key rest).filter _⟩
    intro hmem
    have h := (List.mem_filter.mp hmem).2
    rw [bne_iff_ne] at h
    exact h rfl

theorem mergeGroup_key (items : List AssetItem) (k : String) (m : MergedAsset)
    (hm : mergeGroup (items.filter (fun i => itemKey i == k)) = some m) :
    mergedKey m = k := by
  cases hg : items.filter (fun i => itemKey i == k) with
  | nil =>
    rw [hg, mergeGroup] at hm
    cases hm
  | cons f r =>
    rw [hg, mergeGroup] at hm
    injection hm with h
    subst h
    have hf : f ∈ items.filter (fun i => itemKey i == k) := hg ▸ List.mem_cons_self f r
    have hbq0 := List.of_mem_filter hf
    have hbq : (itemKey f == k) = true := hbq0
    have hk : itemKey f = k := beq_iff_eq.mp hbq
    simpa [mergedKey, itemKey] using hk

theorem pairwise_ne_key_filterMap {β : Type} (keyOf : β → String) (F : String → Option β) :
    ∀ ks : List String, ks.Nodup →
      (∀ k ∈ ks, ∀ m, F k = some m → keyOf m = k) →
      (ks.filterMap F).Pairwise (fun a b => keyOf a ≠ keyOf b)
  | [], _, _ => List.Pairwise.nil
  | k :: ks, hnd, hkey => by
    obtain ⟨hk, hnd2⟩ := List.nodup_cons.mp hnd
    have tail := pairwise_ne_key_filterMap keyOf F ks hnd2
      (fun k2 hk2 m hm => hkey k2 (List.mem_cons_of_mem _ hk2) m hm)
    cases hF : F k with
    | none => simpa only [List.filterMap_cons, hF] using tail
    | some m =>
      simp only [List.filterMap_cons, hF]
      refine List.pairwise_cons.mpr ⟨?_, tail⟩
      intro m2 hm2
      obtain ⟨k2, hk2, hFk2⟩ := List.mem_filterMap.mp hm2
      have h1 : keyOf m = k := hkey k (List.mem_cons_self _ _) m hF
      have h2 : keyOf m2 = k2 := hkey k2 (List.mem_cons_of_mem _ hk2) m2 hFk2
      rw [h1, h2]
      exact fun hkk => hk (hkk ▸ hk2)

theorem mergeAssets_pre_pairwise (items : List AssetItem) :
    (mergeGroups items).Pairwise (fun a b => mergedKey a ≠ mergedKey b) := by
  unfold mergeGroups
  exact pairwise_ne_key_filterMap mergedKey _ (firstKeys itemKey items)
    (nodup_firstKeys itemKey items)
    (fun k _ m hm => mergeGroup_key items k m hm)

/-- Claim C5 (code/spec divergence): the claimed character-code ordering
is the recorded intent, and its totality premise is real — no two output
elements ever share both sort keys (second conjunct; a fact insensitive
to how the output is ordered, since it is invariant under any
permutation of the output) — but the code sorts with default-locale
`localeCompare`, ICU collation, which orders root `a` before root `B`
(letter identity is primary, case only tertiary), can tie distinct keys
containing ignorable characters, and varies with the runtime
environment.  At the failing input below the claimed character-code
order, as the embedded stand-in comparator computes it, puts `B`
(U+0042) first; the real program puts `a` (U+0061) first. -/
theorem claim_C5_divergence :
    (mergeAssets [exRootAsset "B", exRootAsset "a"]).map MergedAsset.rootFolder =
        ["B", "a"] ∧
    ∀ items : List AssetItem,
      (mergeAssets items).Pairwise
        (fun a b => ¬(a.rootFolder = b.rootFolder ∧ a.relativePath = b.relativePath)) := by
  constructor
  · decide
  · intro items
    unfold mergeAssets
    have hp := mergeAssets_pre_pairwise items
    have hperm := List.perm_insertionSort mergedLe (mergeGroups items)
    have hs := (List.Perm.pairwise_iff (fun h => Ne.symm h) hperm).mpr hp
    refine hs.imp ?_
    intro a b hne hpair
    exact hne (by rw [mergedKey, mergedKey, hpair.1, hpair.2])

/-- Claim C6: every merged asset the merger produces has a non-empty
variants list, and its preview extension/URL are the extension and public
URL of one of its variants. -/
theorem claim_C6_preview_in_variants (items : List AssetItem) (m : MergedAsset)
    (hm : m ∈ mergeAssets items) :
    m.variants ≠ [] ∧
      ∃ v ∈ m.variants, m.previewExtension = v.extension ∧ m.previewUrl = v.publicUrl := by
  unfold mergeAssets mergeGroups at hm
  rw [List.mem_insertionSort, List.mem_filterMap] at hm
  obtain ⟨k, _, hsome⟩ := hm
  cases hg : items.filter (fun i => itemKey i == k) with
  | nil =>
    rw [hg, mergeGroup] at hsome
    cases hsome
  | cons f r =>
    rw [hg, mergeGroup] at hsome
    injection hsome with h
    subst h
    refine ⟨by simp, ⟨MergedVariant.mk (pickPreview f r).extension
      (pickPreview f r).publicUrl, ?_, rfl, rfl⟩⟩
    exact List.mem_map_of_mem _ (pickPreview_mem f r)

/-- Witness for C6 at a one-element input: the merged asset of
`[exAsset "svg"]` satisfies the invariant. -/
theorem claim_C6_preview_in_variants_witness :
    exMerged.variants ≠ [] ∧
      ∃ v ∈ exMerged.variants,
        exMerged.previewExtension = v.extension ∧ exMerged.previewUrl = v.publicUrl :=
  claim_C6_preview_in_variants [exAsset "svg"] exMerged (by decide)

/- ------------------------------------------------------------------ -/
/- Order-(in)dependence of the merger: claim C3.                       -/
/- ------------------------------------------------------------------ -/

theorem append_key_cancel (r s s2 : String) (h : r ++ "\n" ++ s = r ++ "\n" ++ s2) :
    s = s2 := by
  have hd : (r ++ "\n").data ++ s.data = (r ++ "\n").data ++ s2.data := by
    rw [← String.data_append, ← String.data_append, h]
  exact String.ext (List.append_cancel_left hd)

theorem pickPreview_perm (f f2 : AssetItem) (r r2 : List AssetItem)
    (hperm : (f :: r).Perm (f2 :: r2))
    (hext : f.extension ∈ preferOrder)
    (hurl : ∀ i ∈ f :: r, ∀ j ∈ f :: r, i.extension = j.extension →
        i.publicUrl = j.publicUrl) :
    (pickPreview f r).extension = (pickPreview f2 r2).extension ∧
      (pickPreview f r).publicUrl = (pickPreview f2 r2).publicUrl := by
  have hanyeq : (fun x => (f :: r).any (fun i => i.extension == x)) =
      (fun x => (f2 :: r2).any (fun i => i.extension == x)) := by
    funext x
    by_cases h : (f :: r).any (fun i => i.extension == x) = true
    · rw [h]
      obtain ⟨i, hi, hix⟩ := List.any_eq_true.mp h
      exact (List.any_eq_true.mpr ⟨i, hperm.mem_iff.mp hi, hix⟩).symm
    · have h2 : ¬(f2 :: r2).any (fun i => i.extension == x) = true := by
        intro hc
        obtain ⟨i, hi, hix⟩ := List.any_eq_true.mp hc
        exact h (List.any_eq_true.mpr ⟨i, hperm.mem_iff.mpr hi, hix⟩)
      rw [Bool.not_eq_true] at h h2
      rw [h, h2]
  cases hfind : preferOrder.find? (fun x => (f :: r).any (fun i => i.extension == x)) with
  | none =>
    exfalso
    rw [List.find?_eq_none] at hfind
    refine hfind f.extension hext ?_
    exact List.any_eq_true.mpr ⟨f, List.mem_cons_self f r, beq_self_eq_true _⟩
  | some e =>
    obtain ⟨p, hp, hpmem, hpe⟩ := (findPreferred_spec (f :: r) preferOrder).1 e hfind
    have hfind2 : preferOrder.find?
        (fun x => (f2 :: r2).any (fun i => i.extension == x)) = some e := by
      rw [← hanyeq]
      exact hfind
    obtain ⟨p2, hp2, hp2mem, hp2e⟩ := (findPreferred_spec (f2 :: r2) preferOrder).1 e hfind2
    have hpick1 : pickPreview f r = p := by
      unfold pickPreview
      rw [hp]
    have hpick2 : pickPreview f2 r2 = p2 := by
      unfold pickPreview
      rw [hp2]
    rw [hpick1, hpick2]
    have hp2mem2 : p2 ∈ f :: r := hperm.mem_iff.mpr hp2mem
    have hexteq : p.extension = p2.extension := hpe.trans hp2e.symm
    exact ⟨hexteq, hurl p hpmem p2 hp2mem2 hexteq⟩

theorem mergeGroup_perm_canon (g g2 : List AssetItem) (hperm : g.Perm g2)
    (hext : ∀ i ∈ g, i.extension ∈ preferOrder)
    (hagree : ∀ i ∈ g, ∀ j ∈ g,
        i.rootFolder = j.rootFolder ∧ mergedBaseName i = mergedBaseName j ∧
          stripExtension i.relativePath = stripExtension j.relativePath)
    (hurl : ∀ i ∈ g, ∀ j ∈ g, i.extension = j.extension → i.publicUrl = j.publicUrl) :
    (mergeGroup g).map canonMerged = (mergeGroup g2).map canonMerged := by
  cases g with
  | nil =>
    have h2 : g2 = [] := (List.perm_nil.mp hperm.symm)
    subst h2
    rfl
  | cons f r =>
    cases g2 with
    | nil => exact absurd (List.perm_nil.mp hperm) (by simp)
    | cons f2 r2 =>
      simp only [mergeGroup, Option.map_some']
      refine congrArg some ?_
      have hf2 : f2 ∈ f :: r := hperm.mem_iff.mpr (List.mem_cons_self f2 r2)
      have hf : f ∈ f :: r := List.mem_cons_self f r
      obtain ⟨hroot, hbn, hsp⟩ := hagree f hf f2 hf2
      have hpick := pickPreview_perm f f2 r r2 hperm (hext f hf) hurl
      simp only [canonMerged, MergedAsset.mk.injEq]
      refine ⟨hroot, hbn, hsp, ?_, hpick.2, hpick.1⟩
      refine List.eq_of_perm_of_sorted ?_ (List.sorted_insertionSort _ _)
        (List.sorted_insertionSort _ _)
      exact ((List.perm_insertionSort canonVariantLe _).trans
        (hperm.map (fun i => MergedVariant.mk i.extension i.publicUrl))).trans
        (List.perm_insertionSort canonVariantLe _).symm

/-- Counterexample to C3 as stated: the collector-style inputs `a.png`,
`a.svg` (one group) merged in the two arrival orders give different
outputs — the variants list keeps arrival order — although the inputs are
permutations of one another. -/
theorem claim_C3_counterexample :
    ([exAsset "png", exAsset "svg"] : List AssetItem).Perm
        [exAsset "svg", exAsset "png"] ∧
      mergeAssets [exAsset "png", exAsset "svg"] ≠
        mergeAssets [exAsset "svg", exAsset "png"] :=
  ⟨List.Perm.swap _ _ _, by decide⟩

/-- Claim C3, amended: under the properties the collector's output enjoys
(every item's extension is in the preference order; items of one group
agree on root folder and computed base name; items of one group with
equal extensions have equal public URLs), the merge step is
order-independent up to the order of the output list and of each output
element's variants list: after canonically sorting every variants list,
the group stage's outputs for any two permutations of the input are
permutations of one another, and hence so are the full sorted outputs.
This is exactly what survives the two order dependences of the code: the
variants list keeps arrival order (the counterexample), and the sort
comparator is the environment's collator, which may tie distinct
grouping keys (ICU ignorable characters), letting the stable sort order
tied groups by arrival.  Both permutation statements hold of the real
program whatever the collator does, because any comparator-driven sort
merely permutes its input. -/
theorem claim_C3_merge_order_independent (l l2 : List AssetItem) (hperm : l.Perm l2)
    (hext : ∀ i ∈ l, i.extension ∈ preferOrder)
    (hkey : ∀ i ∈ l, ∀ j ∈ l, itemKey i = itemKey j →
        i.rootFolder = j.rootFolder ∧ mergedBaseName i = mergedBaseName j)
    (hurl : ∀ i ∈ l, ∀ j ∈ l, itemKey i = itemKey j → i.extension = j.extension →
        i.publicUrl = j.publicUrl) :
    ((mergeGroups l).map canonMerged).Perm ((mergeGroups l2).map canonMerged) ∧
    ((mergeAssets l).map canonMerged).Perm ((mergeAssets l2).map canonMerged) := by
  have hfk : (firstKeys itemKey l).Perm (firstKeys itemKey l2) := by
    refine (List.perm_ext_iff_of_nodup (nodup_firstKeys itemKey l)
      (nodup_firstKeys itemKey l2)).mpr ?_
    intro k
    rw [mem_firstKeys, mem_firstKeys]
    constructor
    · rintro ⟨a, ha, hk⟩
      exact ⟨a, hperm.mem_iff.mp ha, hk⟩
    · rintro ⟨a, ha, hk⟩
      exact ⟨a, hperm.mem_iff.mpr ha, hk⟩
  have hgroups : ∀ k ∈ firstKeys itemKey l,
      (mergeGroup (l.filter (fun i => itemKey i == k))).map canonMerged =
        (mergeGroup (l2.filter (fun i => itemKey i == k))).map canonMerged := by
    intro k _
    have hgperm : (l.filter (fun i => itemKey i == k)).Perm
        (l2.filter (fun i => itemKey i == k)) := hperm.filter _
    refine mergeGroup_perm_canon _ _ hgperm ?_ ?_ ?_
    · intro i hi
      exact hext i (List.mem_of_mem_filter hi)
    · intro i hi j hj
      have hik0 := List.of_mem_filter hi
      have hik : itemKey i = k := beq_iff_eq.mp hik0
      have hjk0 := List.of_mem_filter hj
      have hjk : itemKey j = k := beq_iff_eq.mp hjk0
      have hkeq : itemKey i = itemKey j := hik.trans hjk.symm
      have hil : i ∈ l := List.mem_of_mem_filter hi
      have hjl : j ∈ l := List.mem_of_mem_filter hj
      obtain ⟨hroot, hbn⟩ := hkey i hil j hjl hkeq
      refine ⟨hroot, hbn, ?_⟩
      have hkeq2 := hkeq
      simp only [itemKey] at hkeq2
      rw [← hroot] at hkeq2
      exact append_key_cancel _ _ _ hkeq2
    · intro i hi j hj hexteq
      have hik0 := List.of_mem_filter hi
      have hik : itemKey i = k := beq_iff_eq.mp hik0
      have hjk0 := List.of_mem_filter hj
      have hjk : itemKey j = k := beq_iff_eq.mp hjk0
      exact hurl i (List.mem_of_mem_filter hi) j (List.mem_of_mem_filter hj)
        (hik.trans hjk.symm) hexteq
  have hpre : ((mergeGroups l).map canonMerged).Perm ((mergeGroups l2).map canonMerged) := by
    unfold mergeGroups
    rw [List.map_filterMap, List.map_filterMap]
    have h1 := List.filterMap_congr (l := firstKeys itemKey l) hgroups
    rw [h1]
    exact hfk.filterMap _
  refine ⟨hpre, ?_⟩
  have h1 : ((mergeAssets l).map canonMerged).Perm ((mergeGroups l).map canonMerged) :=
    (List.perm_insertionSort mergedLe (mergeGroups l)).map canonMerged
  have h2 : ((mergeAssets l2).map canonMerged).Perm ((mergeGroups l2).map canonMerged) :=
    (List.perm_insertionSort mergedLe (mergeGroups l2)).map canonMerged
  exact (h1.trans hpre).trans h2.symm

/-- Witness for the amended C3 at the counterexample's inputs: all
hypotheses hold for these collector-style items and the canonicalized
outputs are permutations of one another. -/
theorem claim_C3_merge_order_independent_witness :
    ((mergeAssets [exAsset "png", exAsset "svg"]).map canonMerged).Perm
      ((mergeAssets [exAsset "svg", exAsset "png"]).map canonMerged) :=
  (claim_C3_merge_order_independent [exAsset "png", exAsset "svg"]
    [exAsset "svg", exAsset "png"] (List.Perm.swap _ _ _)
    (by decide) (by decide) (by decide)).2

/- ------------------------------------------------------------------ -/
/- Slug lemmas and claim C7.                                           -/
/- ------------------------------------------------------------------ -/

theorem slug_toNat (c : Char) (h : isSlugChar c = true) :
    (97 ≤ c.toNat ∧ c.toNat ≤ 122) ∨ (48 ≤ c.toNat ∧ c.toNat ≤ 57) ∨ c.toNat = 45 := by
  simp only [isSlugChar, Bool.or_eq_true, Bool.and_eq_true, decide_eq_true_eq] at h
  rcases h with (⟨h1, h2⟩ | ⟨h1, h2⟩) | h3
  · exact Or.inl ⟨h1, h2⟩
  · exact Or.inr (Or.inl ⟨h1, h2⟩)
  · subst h3
    exact Or.inr (Or.inr rfl)

theorem jsLowerChar_fixed (c : Char) (h : isSlugChar c = true) : jsLowerChar c = c := by
  have hb := slug_toNat c h
  unfold jsLowerChar
  rw [if_neg]
  rintro ⟨h1, h2⟩
  have h1n : 65 ≤ c.toNat := h1
  have h2n : c.toNat ≤ 90 := h2
  rcases hb with ⟨x, y⟩ | ⟨x, y⟩ | x <;> omega

theorem slugChar_not_ws (c : Char) (h : isSlugChar c = true) : isJsWhitespace c = false := by
  have hb := slug_toNat c h
  rw [Bool.eq_false_iff]
  intro hws
  simp only [isJsWhitespace, Bool.or_eq_true, Bool.and_eq_true, decide_eq_true_eq] at hws
  rcases hws with
    ((((((((((((((h1 | h1) | h1) | h1) | h1) | h1) | h1) | h1) | ⟨h1, h2⟩) | h1) | h1) | h1) | h1) | h1) | h1)
  all_goals first
  | (subst h1
     exact absurd hb (by decide))
  | (have ha : 8192 ≤ c.toNat := h1
     have hbn : c.toNat ≤ 8202 := h2
     rcases hb with ⟨x, y⟩ | ⟨x, y⟩ | x <;> omega)

theorem slugChar_not_slash (c : Char) (h : isSlugChar c = true) : ¬c = '/' := by
  intro he
  subst he
  exact absurd h (by decide)

theorem map_lower_id (L : List Char) (h : ∀ c ∈ L, isSlugChar c = true) :
    L.map jsLowerChar = L := by
  induction L with
  | nil => rfl
  | cons c rest ih =>
    rw [List.map_cons, jsLowerChar_fixed c (h c (List.mem_cons_self _ _)),
      ih (fun x hx => h x (List.mem_cons_of_mem _ hx))]

theorem collapse_id (L : List Char) (h : ∀ c ∈ L, isJsWhitespace c = false) :
    collapseWsAux false L = L := by
  induction L with
  | nil => rfl
  | cons c rest ih =>
    have hc := h c (List.mem_cons_self _ _)
    simp only [collapseWsAux, hc, Bool.false_eq_true, if_false]
    rw [ih (fun x hx => h x (List.mem_cons_of_mem _ hx))]

theorem map_slash_id (L : List Char) (h : ∀ c ∈ L, ¬c = '/') :
    L.map (fun c => if c = '/' then '-' else c) = L := by
  induction L with
  | nil => rfl
  | cons c rest ih =>
    rw [List.map_cons, if_neg (h c (List.mem_cons_self _ _)),
      ih (fun x hx => h x (List.mem_cons_of_mem _ hx))]

theorem toSlug_idem (s : String) : toSlug (toSlug s) = toSlug s := by
  have hall : ∀ c ∈ (toSlug s).data, isSlugChar c = true := by
    intro c hc
    exact List.of_mem_filter hc
  refine String.ext ?_
  show (((collapseWsAux false ((toSlug s).data.map jsLowerChar)).map
      (fun c => if c = '/' then '-' else c)).filter isSlugChar) = (toSlug s).data
  rw [map_lower_id _ hall,
    collapse_id _ (fun c hc => slugChar_not_ws c (hall c hc)),
    map_slash_id _ (fun c hc => slugChar_not_slash c (hall c hc)),
    List.filter_eq_self.mpr hall]

/-- Counterexample to C7's collision-freedom part: the dataset with
folders `a b` and `a-b` under the configured root `Templates` yields two
sections with distinct headings but one and the same id
(`templates---a-b`), under exactly the grouping rules in use. -/
theorem claim_C7_counterexample :
    ((sectionsOf [cexAsset "a b/x", cexAsset "a-b/y"] ["Templates"]).map
        (fun s => (s.heading, s.id))) =
      [("Templates / a b", "templates---a-b"), ("Templates / a-b", "templates---a-b")] ∧
      ("Templates / a b" : String) ≠ "Templates / a-b" := by
  constructor
  · decide
  · decide

/-- Claim C7, amended: slugification is idempotent (for every heading),
but distinct section headings arising under the grouping rules can
collide (see the counterexample), so collision-freedom only holds for the
concrete headings in use; for the two configured root-folder headings the
ids are distinct. -/
theorem claim_C7_slug_idempotent (s : String) :
    toSlug (toSlug s) = toSlug s ∧
      toSlug "Separate Atoms" ≠ toSlug "Templates" :=
  ⟨toSlug_idem s, by decide⟩

/- ------------------------------------------------------------------ -/
/- Scroll-spy lemmas and claim C8.                                     -/
/- ------------------------------------------------------------------ -/

theorem getLast?_mem_self {α : Type} :
    ∀ {l : List α} {a : α}, l.getLast? = some a → a ∈ l
  | [], a, h => absurd h (by simp)
  | [x], a, h => by
    rw [List.getLast?_singleton] at h
    injection h with h
    subst h
    exact List.mem_cons_self _ _
  | x :: y :: t, a, h => by
    rw [List.getLast?_cons_cons] at h
    exact List.mem_cons_of_mem _ (getLast?_mem_self h)

theorem foldl_scroll (vt : Int) :
    ∀ (secs : List (String × Option Int)) (acc : Option String),
      secs.foldl (scrollStep vt) acc =
        match (secs.filter (qualifies vt)).getLast? with
        | some pr => some pr.1
        | none => acc
  | [], _ => rfl
  | p :: rest, acc => by
    rw [List.foldl_cons, foldl_scroll vt rest (scrollStep vt acc p), List.filter_cons]
    by_cases hq : qualifies vt p = true
    · rw [if_pos hq]
      have hstep : scrollStep vt acc p = some p.1 := by
        unfold qualifies at hq
        cases hpp : p.2 with
        | none =>
          rw [hpp] at hq
          exact absurd hq (by simp)
        | some o =>
          rw [hpp] at hq
          rw [decide_eq_true_eq] at hq
          simp only [scrollStep, hpp]
          rw [if_pos hq]
      cases hfr : List.filter (qualifies vt) rest with
      | nil =>
        rw [List.getLast?_singleton]
        exact hstep
      | cons x xs =>
        rw [List.getLast?_cons_cons]
        cases hgl2 : (x :: xs).getLast? with
        | none => exact absurd hgl2 (by simp)
        | some pr => rfl
    · rw [if_neg hq]
      have hstep : scrollStep vt acc p = acc := by
        unfold qualifies at hq
        cases hpp : p.2 with
        | none => simp only [scrollStep, hpp]
        | some o =>
          rw [hpp] at hq
          simp only [scrollStep, hpp]
          rw [if_neg]
          intro hle
          exact hq (decide_eq_true hle)
      rw [hstep]

/-- Claim C8: on each scroll event (and the call on mount), when some
section qualifies (its element exists and its top offset is at or above
the anchor `scrollY + 120`), `activeId` is set to the last qualifying
section in document order; when none qualifies, `activeId` is left
unchanged rather than reset; consequently `activeId` never regresses to
`null` once it is non-`null`.  The hypothesis that section ids are
non-empty reflects every reachable state of the gallery (ids are slugs of
headings that start with a configured root-folder name). -/
theorem claim_C8_scroll_update (secs : List (String × Option Int)) (scrollY : Int)
    (active : Option String) (hids : ∀ p ∈ secs, p.1 ≠ "") :
    (∀ id2, lastQualifying secs (scrollY + 120) = some id2 →
        onScrollUpdate secs scrollY active = some id2) ∧
    (lastQualifying secs (scrollY + 120) = none →
        onScrollUpdate secs scrollY active = active) ∧
    (active ≠ none → onScrollUpdate secs scrollY active ≠ none) := by
  have hc := foldl_scroll (scrollY + 120) secs none
  cases hgl : (secs.filter (qualifies (scrollY + 120))).getLast? with
  | some pr =>
    rw [hgl] at hc
    have hprmem : pr ∈ secs := List.mem_of_mem_filter (getLast?_mem_self hgl)
    have hne : pr.1 ≠ "" := hids pr hprmem
    have hupd : onScrollUpdate secs scrollY active = some pr.1 := by
      unfold onScrollUpdate scrollCurrent
      rw [hc]
      exact if_neg hne
    refine ⟨?_, ?_, ?_⟩
    · intro id2 hid
      unfold lastQualifying at hid
      rw [hgl] at hid
      injection hid with hid
      rw [hupd, hid]
    · intro hnone
      unfold lastQualifying at hnone
      rw [hgl] at hnone
      exact absurd hnone (by simp)
    · intro _
      rw [hupd]
      simp
  | none =>
    rw [hgl] at hc
    have hupd : onScrollUpdate secs scrollY active = active := by
      unfold onScrollUpdate scrollCurrent
      rw [hc]
    refine ⟨?_, fun _ => hupd, ?_⟩
    · intro id2 hid
      unfold lastQualifying at hid
      rw [hgl] at hid
      exact absurd hid (by simp)
    · intro ha
      rw [hupd]
      exact ha

/-- Witness for C8: one section with offset `0` at scroll position `0`;
the anchor is `120`, the section qualifies and becomes active. -/
theorem claim_C8_scroll_update_witness :
    onScrollUpdate [("s", (some 0 : Option Int))] 0 none = some "s" :=
  (claim_C8_scroll_update [("s", (some 0 : Option Int))] 0 none (by decide)).1 "s"
    (by decide)

/- ------------------------------------------------------------------ -/
/- Public URL lemmas and claim C9.                                     -/
/- ------------------------------------------------------------------ -/

theorem splitSlash_ne_nil : ∀ l : List Char, splitSlash l ≠ []
  | [] => by simp [splitSlash]
  | c :: rest => by
    rw [splitSlash]
    by_cases h : c = '/'
    · simp [h]
    · rw [if_neg h]
      cases hs : splitSlash rest with
      | nil => simp
      | cons s ss => simp

theorem splitSlash_append (a b : List Char) :
    splitSlash (a ++ '/' :: b) = splitSlash a ++ splitSlash b := by
  induction a with
  | nil => rfl
  | cons c a2 ih =>
    rw [List.cons_append, splitSlash]
    by_cases h : c = '/'
    · rw [if_pos h, ih]
      rw [splitSlash, if_pos h]
      rfl
    · rw [if_neg h, ih]
      rw [splitSlash, if_neg h]
      cases hs : splitSlash a2 with
      | nil => exact absurd hs (splitSlash_ne_nil a2)
      | cons s ss => rfl

theorem splitSlash_no_slash : ∀ (a : List Char), (∀ c ∈ a, c ≠ '/') → splitSlash a = [a]
  | [], _ => rfl
  | c :: rest, h => by
    rw [splitSlash, if_neg (h c (List.mem_cons_self _ _)),
      splitSlash_no_slash rest (fun x hx => h x (List.mem_cons_of_mem _ hx))]

/-- Claim C9: for every discovered file the public URL built by the code
equals the spec's description — a `/`, then the root-folder label and the
relative path's slash-separated segments, joined with `/`, every segment
percent-encoded independently (so spaces and special characters are
escaped without escaping the separating slashes).  The root-folder label
contains no slash (both configured labels satisfy this). -/
theorem claim_C9_public_url (rootFolder relativePath : String)
    (h : ∀ c ∈ rootFolder.data, c ≠ '/') :
    toPublicUrl rootFolder relativePath = specPublicUrl rootFolder relativePath := by
  unfold toPublicUrl specPublicUrl
  have hd : (rootFolder ++ "/" ++ relativePath).data =
      rootFolder.data ++ '/' :: relativePath.data := by
    rw [String.data_append, String.data_append]
    rw [List.append_assoc]
    rfl
  rw [hd, splitSlash_append, splitSlash_no_slash rootFolder.data h]
  rfl

/-- Witness for C9 at a name containing spaces: the slash-free hypothesis
holds for the configured label `Separate Atoms` and the URL
percent-encodes each segment but not the separators. -/
theorem claim_C9_public_url_witness :
    toPublicUrl "Separate Atoms" "Body/arm 1.svg" =
        specPublicUrl "Separate Atoms" "Body/arm 1.svg" ∧
      toPublicUrl "Separate Atoms" "Body/arm 1.svg" =
        "/Separate%20Atoms/Body/arm%201.svg" :=
  ⟨claim_C9_public_url "Separate Atoms" "Body/arm 1.svg" (by decide), by decide⟩

/- ------------------------------------------------------------------ -/
/- Sectioning lemmas and claim C10.                                    -/
/- ------------------------------------------------------------------ -/

theorem sections_items_sub (assets : List MergedAsset) (so : List String) :
    ∀ s ∈ sectionsOf assets so, ∀ m ∈ s.items, m ∈ assets ∧ m.rootFolder ∈ so := by
  intro s hs m hm
  obtain ⟨L, hL, hsL⟩ := List.mem_flatten.mp hs
  obtain ⟨r, hr, rfl⟩ := List.mem_map.mp hL
  obtain ⟨fp, _, rfl⟩ := List.mem_map.mp hsL
  have hm1 : m ∈ rootAssetsOf assets r := List.mem_of_mem_filter hm
  have hm2 : m ∈ assets := List.mem_of_mem_filter hm1
  have hb0 := List.of_mem_filter hm1
  have hb : m.rootFolder = r := beq_iff_eq.mp hb0
  exact ⟨hm2, hb ▸ hr⟩

theorem countP_perRoot_zero (assets : List MergedAsset) (m : MergedAsset) (r : String)
    (hmr : m.rootFolder ≠ r) :
    (perRootSections assets r).countP (fun s => decide (m ∈ s.items)) = 0 := by
  rw [List.countP_eq_zero]
  intro s hs hp
  obtain ⟨fp, _, rfl⟩ := List.mem_map.mp hs
  rw [decide_eq_true_eq] at hp
  have hm1 : m ∈ rootAssetsOf assets r := List.mem_of_mem_filter hp
  have hb0 := List.of_mem_filter hm1
  exact hmr (beq_iff_eq.mp hb0)

theorem countP_perRoot_one (assets : List MergedAsset) (m : MergedAsset) (r : String)
    (hm : m ∈ assets) (hmr : m.rootFolder = r) :
    (perRootSections assets r).countP (fun s => decide (m ∈ s.items)) = 1 := by
  have hmra : m ∈ rootAssetsOf assets r :=
    List.mem_filter.mpr ⟨hm, beq_iff_eq.mpr hmr⟩
  rw [perRootSections, List.countP_map]
  have hcongr : ∀ fp ∈ List.insertionSort sectionFolderLe
      (firstKeys (fun a => getFolderPath a.relativePath) (rootAssetsOf assets r)),
      (((fun s => decide (m ∈ s.items)) ∘ mkSection assets r) fp = true ↔
        (fp == getFolderPath m.relativePath) = true) := by
    intro fp _
    simp only [Function.comp_apply, decide_eq_true_eq, beq_iff_eq]
    constructor
    · intro hin
      have hin2 : m ∈ (rootAssetsOf assets r).filter
          (fun a => getFolderPath a.relativePath == fp) := hin
      have hb0 := List.of_mem_filter hin2
      exact (beq_iff_eq.mp hb0).symm
    · intro hfp
      show m ∈ (rootAssetsOf assets r).filter
        (fun a => getFolderPath a.relativePath == fp)
      exact List.mem_filter.mpr ⟨hmra, beq_iff_eq.mpr hfp.symm⟩
  rw [List.countP_congr hcongr, ← List.count_eq_countP,
    (List.perm_insertionSort sectionFolderLe _).count_eq]
  exact List.count_eq_one_of_mem (nodup_firstKeys _ _)
    ((mem_firstKeys _ _ _).mpr ⟨m, hmra, rfl⟩)

theorem countP_sections (assets : List MergedAsset) (m : MergedAsset) (hm : m ∈ assets) :
    ∀ so : List String, so.Nodup →
      (sectionsOf assets so).countP (fun s => decide (m ∈ s.items)) =
        if m.rootFolder ∈ so then 1 else 0
  | [], _ => by simp [sectionsOf]
  | r :: so2, hnd => by
    obtain ⟨hr, hnd2⟩ := List.nodup_cons.mp hnd
    have ih := countP_sections assets m hm so2 hnd2
    have hsplit : sectionsOf assets (r :: so2) =
        perRootSections assets r ++ sectionsOf assets so2 := by
      simp [sectionsOf]
    rw [hsplit, List.countP_append, ih]
    by_cases hmr : m.rootFolder = r
    · rw [countP_perRoot_one assets m r hm hmr]
      have hnotin : m.rootFolder ∉ so2 := by
        rw [hmr]
        exact hr
      rw [if_neg hnotin, if_pos (by rw [hmr]; exact List.mem_cons_self _ _)]
    · rw [countP_perRoot_zero assets m r hmr]
      by_cases hin : m.rootFolder ∈ so2
      · rw [if_pos hin, if_pos (List.mem_cons_of_mem _ hin)]
      · rw [if_neg hin, if_neg ?_]
        intro hc
        rcases List.mem_cons.mp hc with hc | hc
        · exact hmr hc
        · exact hin hc

/-- Claim C10: with a duplicate-free caller-supplied `sectionOrder` (the
page passes the two distinct `ROOT_FOLDERS`), the sections partition
exactly the assets whose root folder occurs in `sectionOrder`: such an
asset lies in the items of exactly one section, an asset whose root folder
is not listed lies in no section at all, and every section item comes from
the input with a listed root folder. -/
theorem claim_C10_sections_partition (assets : List MergedAsset) (so : List String)
    (hnd : so.Nodup) :
    (∀ m ∈ assets,
        (sectionsOf assets so).countP (fun s => decide (m ∈ s.items)) =
          if m.rootFolder ∈ so then 1 else 0) ∧
    (∀ s ∈ sectionsOf assets so, ∀ m ∈ s.items, m ∈ assets ∧ m.rootFolder ∈ so) :=
  ⟨fun m hm => countP_sections assets m hm so hnd, sections_items_sub assets so⟩

/-- Witness for C10: one asset under the configured root `Templates`,
`sectionOrder = ["Templates"]` (duplicate-free); the asset appears in
exactly one section. -/
theorem claim_C10_sections_partition_witness :
    (["Templates"] : List String).Nodup ∧
      (sectionsOf [cexAsset "a b/x"] ["Templates"]).countP
        (fun s => decide (cexAsset "a b/x" ∈ s.items)) = 1 := by
  refine ⟨by decide, ?_⟩
  have h := (claim_C10_sections_partition [cexAsset "a b/x"] ["Templates"] (by decide)).1
    (cexAsset "a b/x") (List.mem_cons_self _ _)
  rw [if_pos (by decide)] at h
  exact h
